import Mathlib

/-!
Shallow embedding of `sage/combinat/designs/difference_family.py` (module
for constructing and verifying difference families) together with proofs
about the embedded code.

Modelling conventions:
* Python exceptions are modelled with `Except PyErr`; the constructors of
  `PyErr` name the Python exception classes that the module can raise.
* Python integers are `Int`; Python `//` is `Int.fdiv` and `%` is
  `Int.fmod` (both floor-convention, matching Python), with an explicit
  `ZeroDivisionError` where the divisor is the literal result of an
  expression that Python would evaluate to `0`.
* `xrange(n)` is `List.range n.toNat` (empty for negative `n`), and
  `xrange(1, n+1)` is `(List.range n.toNat).map (· + 1)`.
* The group/field objects are external collaborators of the module, so
  they are modelled as plain records of operations (`GroupCap` for the
  result of `group_law`, `FieldCap` for `GF(v)`); the algebraic facts the
  module relies on appear as explicit hypotheses of the theorems.
  `group_law` classifies a finite field as an additive group and returns
  `(zero, add, neg)`; this is `FieldCap.toAdd` below.
* Python dicts built by comprehensions are association lists in insertion
  order where the last binding of a key wins (`dget`).  Python 2 dict
  iteration order is implementation defined; `dkeys` fixes one order.
* The external database `DF_constructions` is an association list from
  `(v, k, l)` triples to opaque values of a type `β` (the zero-argument
  constructors are opaque oracles producing a (group, family) pair).
* `arith.is_prime_power` and `arith.is_square` are external; they are
  passed to `difference_family` as boolean-valued parameters.
-/

inductive PyErr : Type where
  | IndexError : PyErr
  | KeyError : PyErr
  | ZeroDivisionError : PyErr
  | AssertionError : PyErr
  | EmptySetError : PyErr
  | NotImplementedError : PyErr
  | RuntimeError : PyErr
deriving DecidableEq

/-- The three-valued result of an existence query: Python `True`,
`False` and sage's `Unknown`. -/
inductive Tri : Type where
  | T : Tri
  | F : Tri
  | U : Tri
deriving DecidableEq

/-- The result of `group_law(G)`: identity element, binary operation and
inverse, together with element enumeration (`for g in G`) and
cardinality (`G.cardinality() = elements.length`). -/
structure GroupCap (α : Type) where
  elements : List α
  identity : α
  op : α → α → α
  inv : α → α

/-- The field capability used for `K = GF(v, 'z')`: zero, one, ring
operations, multiplicative inverse (used by Python `**` with a negative
exponent) and `K.multiplicative_generator()`. -/
structure FieldCap (α : Type) where
  elements : List α
  zero : α
  one : α
  add : α → α → α
  mul : α → α → α
  neg : α → α
  inv : α → α
  gen : α

/-- Python subtraction `a - b` on field elements. -/
def FieldCap.sub {α : Type} (K : FieldCap α) (a b : α) : α :=
  K.add a (K.neg b)

/-- `group_law(K)` for a finite field: sage classifies it as an additive
group and returns `(K.zero(), operator.add, operator.neg)`. -/
def FieldCap.toAdd {α : Type} (K : FieldCap α) : GroupCap α :=
  { elements := K.elements, identity := K.zero, op := K.add, inv := K.neg }

/-- `a ** n` for a natural exponent, in the multiplicative monoid of `K`. -/
def npowK {α : Type} (K : FieldCap α) (a : α) : Nat → α
  | 0 => K.one
  | n + 1 => K.mul (npowK K a n) a

/-- Python `a ** n` for an integer exponent: a negative exponent inverts. -/
def zpowK {α : Type} (K : FieldCap α) (a : α) (n : Int) : α :=
  if 0 ≤ n then npowK K a n.toNat else K.inv (npowK K a (-n).toNat)

/-- Lookup in a Python dict represented as an association list of the
bindings in insertion order: the last binding of a key wins, a missing
key gives `none` (a `KeyError` at use sites). -/
def dget {α : Type} [DecidableEq α] (prs : List (α × Int)) (a : α) : Option Int :=
  ((prs.filter (fun p => decide (p.1 = a))).map Prod.snd).getLast?

/-- The key set of a Python dict, in one fixed order (Python 2 dict
iteration order is implementation defined). -/
def dkeys {α : Type} [DecidableEq α] (prs : List (α × Int)) : List α :=
  (prs.map Prod.fst).dedup

/-- Membership test and lookup for the external table `DF_constructions`. -/
def tblLookup {β : Type} (tbl : List ((Int × Int × Int) × β))
    (key : Int × Int × Int) : Option β :=
  (tbl.find? (fun p => decide (p.1 = key))).map Prod.snd

/-- `_nonzero_and_have_distinct_images(elts, f, images)`.  The pair
returned is (the Python return value or exception, the final contents of
the mutated `images` set).  The set is modelled as the list of its
elements in order of insertion. -/
def nzdiRun {α ι : Type} [DecidableEq α] [DecidableEq ι] (z : α)
    (elts : List α) (f : α → Option ι) (images : List ι) :
    Except PyErr Bool × List ι :=
  match elts with
  | [] => (.ok true, images)
  | e :: rest =>
    if e = z then (.ok false, images)
    else
      match f e with
      | none => (.error .KeyError, images)
      | some i =>
        if i ∈ images then (.ok false, images)
        else nzdiRun z rest f (images ++ [i])

/-- The prefix of `elts` that `_nonzero_and_have_distinct_images`
consumes without hitting a violation (used to state the frame effect on
the `images` set). -/
def takenElems {α ι : Type} [DecidableEq α] [DecidableEq ι] (z : α)
    (f : α → Option ι) : List α → List ι → List α
  | [], _ => []
  | e :: rest, images =>
    if e = z then []
    else
      match f e with
      | none => []
      | some i =>
        if i ∈ images then []
        else e :: takenElems z f rest (images ++ [i])

/-- `cyclotomic_cosets(K, e, cosets, with_zero)`.  The body evaluates
`q % e` inside `assert q % e == 1`, so `e = 0` raises
`ZeroDivisionError` and a failing assertion raises `AssertionError`. -/
def cyclotomic_cosets {α : Type} (K : FieldCap α) (e : Int)
    (cosets : Option (List α)) (with_zero : Bool) :
    Except PyErr (List (List α)) :=
  let q : Int := K.elements.length
  if e = 0 then .error .ZeroDivisionError
  else if q.fmod e ≠ 1 then .error .AssertionError
  else
    let f := (q - 1).fdiv e
    let x := K.gen
    let cs := match cosets with
      | none => (List.range e.toNat).map (fun i => npowK K x i)
      | some cs => cs
    let xx := zpowK K x e
    if with_zero then
      .ok (cs.map (fun y => K.zero :: (List.range f.toNat).map (fun s => K.mul y (npowK K xx s))))
    else
      .ok (cs.map (fun y => (List.range f.toNat).map (fun s => K.mul y (npowK K xx s))))

/-- The list of within-block differences of one block, in the order the
verifier's loops produce them: `for i in xrange(k): for j in xrange(k):
if i == j: continue; op(dd[i], inv(dd[j]))`.  The default value of
`getD` is never used when the block has length `k`. -/
def blockDiffs {α : Type} (G : GroupCap α) (k : Nat) (d : List α) : List α :=
  (List.range k).flatMap (fun i =>
    ((List.range k).filter (fun j => decide (j ≠ i))).map (fun j =>
      G.op (d.getD i G.identity) (G.inv (d.getD j G.identity))))

/-- All within-block differences of the family, in loop order. -/
def allDiffs {α : Type} (G : GroupCap α) (k : Nat) (D : List (List α)) : List α :=
  D.flatMap (blockDiffs G k)

/-- The counter loop of `is_difference_family`: walk the differences,
fail (`some false`) on an identity difference or on a counter exceeding
`l`, and raise `KeyError` (`none`) when a difference is not a key of the
counter dict, whose keys are the elements of `G` minus the identity. -/
def checkDiffs {α : Type} [DecidableEq α] (G : GroupCap α) (l : Int) :
    List α → (α → Int) → Option Bool
  | [], _ => some true
  | g :: rest, c =>
    if g = G.identity then some false
    else if g ∈ G.elements then
      if c g + 1 > l then some false
      else checkDiffs G l rest (fun h => if h = g then c g + 1 else c h)
    else none

/-- Counter phase of `is_difference_family`: build the counter over the
non-identity elements (`del counter[identity]` raises `KeyError` when
the identity is not among the enumerated elements) and run the loops. -/
def idfCore {α : Type} [DecidableEq α] (G : GroupCap α) (D : List (List α))
    (k l : Int) : Except PyErr Bool :=
  if G.identity ∈ G.elements then
    match checkDiffs G l (allDiffs G k.toNat D) (fun _ => 0) with
    | none => .error .KeyError
    | some b => .ok b
  else .error .KeyError

/-- The `l` step of `is_difference_family`: infer `l` from
`b*k*(k-1) % (v-1)` (Python raises `ZeroDivisionError` when `v = 1`) or
check the supplied `l` against `b*k*(k-1) == l*(v-1)`. -/
def idfLambda {α : Type} [DecidableEq α] (G : GroupCap α) (D : List (List α))
    (v k : Int) (lopt : Option Int) : Except PyErr Bool :=
  let b : Int := D.length
  match lopt with
  | none =>
    if v - 1 = 0 then .error .ZeroDivisionError
    else if (b * k * (k - 1)).fmod (v - 1) ≠ 0 then .ok false
    else idfCore G D k ((b * k * (k - 1)).fdiv (v - 1))
  | some l =>
    if b * k * (k - 1) ≠ l * (v - 1) then .ok false
    else idfCore G D k l

/-- The block-length step: `any(len(d) != k for d in D)` returns `False`. -/
def idfBlocks {α : Type} [DecidableEq α] (G : GroupCap α) (D : List (List α))
    (v k : Int) (lopt : Option Int) : Except PyErr Bool :=
  if D.any (fun d => decide ((d.length : Int) ≠ k)) then .ok false
  else idfLambda G D v k lopt

/-- The `k` step: `k = len(D[0])` raises `IndexError` on an empty family. -/
def idfK {α : Type} [DecidableEq α] (G : GroupCap α) (D : List (List α))
    (v : Int) (kopt lopt : Option Int) : Except PyErr Bool :=
  match kopt with
  | none =>
    match D with
    | [] => .error .IndexError
    | d :: _ => idfBlocks G D v d.length lopt
  | some k => idfBlocks G D v k lopt

/-- `is_difference_family(G, D, v, k, l)` (with `verbose=False`; the
verbose prints carry no information beyond the boolean result).  The
coercion `map(G, d)` of the block entries is the identity here because
the blocks already hold group elements. -/
def is_difference_family {α : Type} [DecidableEq α] (G : GroupCap α)
    (D : List (List α)) (vopt kopt lopt : Option Int) : Except PyErr Bool :=
  match vopt with
  | none => idfK G D (G.elements.length : Int) kopt lopt
  | some v =>
    if (G.elements.length : Int) ≠ v then .ok false
    else idfK G D v kopt lopt

/-- The dict comprehension `{x**i * xx**j: i for i in xrange(m) for j in
xrange(vm)}` of the Wilson branches, as an association list in insertion
order. -/
def tcPairs {α : Type} (K : FieldCap α) (m : Int) (xx : α) (vm : Int) :
    List (α × Int) :=
  (List.range m.toNat).flatMap (fun i =>
    (List.range vm.toNat).map (fun j =>
      (K.mul (npowK K K.gen i) (npowK K xx j), (i : Int))))

/-- Python `xrange(1, m+1)`. -/
def xrange1 (m : Int) : List Nat :=
  (List.range m.toNat).map (· + 1)

/-- The result of `difference_family`: an existence-mode tri-state, a
value returned straight from the external database, or a constructed
`(K, D)` pair. -/
inductive DFRes (α β : Type) : Type where
  | tri : Tri → DFRes α β
  | tbl : β → DFRes α β
  | pair : FieldCap α → List (List α) → DFRes α β

/-- The final lines of `difference_family`: the verification gate
`if check and not is_difference_family(K, D): raise RuntimeError` and
the final `return K, D`. -/
def dfFinish {α β : Type} [DecidableEq α] (K : FieldCap α)
    (D : List (List α)) (check : Bool) : Except PyErr (DFRes α β) :=
  if check then
    match is_difference_family K.toAdd D none none none with
    | .error pe => .error pe
    | .ok false => .error .RuntimeError
    | .ok true => .ok (.pair K D)
  else .ok (.pair K D)

/-- The `for c in to_coset:` search of the `k == 6` branch (Wilson
theorem 11): return the first key `c` whose five candidate differences
pass `_nonzero_and_have_distinct_images`, propagating exceptions. -/
def k6search {α : Type} [DecidableEq α] (K : FieldCap α)
    (to_coset : List (α × Int)) (r : α) : List α → Except PyErr (Option α)
  | [] => .ok none
  | c :: rest =>
    match (nzdiRun K.zero
        [K.sub r K.one, K.mul c (K.sub r K.one), K.sub c K.one,
         K.sub c r, K.sub c (npowK K r 2)]
        (dget to_coset) []).1 with
    | .error pe => .error pe
    | .ok true => .ok (some c)
    | .ok false => k6search K to_coset r rest

/-- Shared tail of the three Wilson search branches once `D` is known
(or known to be `None`): `if D is None: ...` and the verification gate. -/
def dfWrap {α β : Type} [DecidableEq α] (K : FieldCap α)
    (D : Option (List (List α))) (existence check : Bool) :
    Except PyErr (DFRes α β) :=
  match D with
  | none => if existence then .ok (.tri .U) else .error .NotImplementedError
  | some D => dfFinish K D check

/-- `difference_family(v, k, l, existence, check)`.

External collaborators appear as parameters: `tbl` is the database
`DF_constructions` (opaque constructor results of type `β`), `isPP` is
`arith.is_prime_power`, `isSq` is `arith.is_square`, and `K` is the
field `GF(v, 'z')` that the body constructs when `isPP v` holds. -/
def difference_family {α β : Type} [DecidableEq α]
    (tbl : List ((Int × Int × Int) × β)) (isPP isSq : Int → Bool)
    (K : FieldCap α) (v k l : Int) (existence check : Bool) :
    Except PyErr (DFRes α β) :=
  if k * (k - 1) = 0 then .error .ZeroDivisionError
  else if (l * (v - 1)).fmod (k * (k - 1)) ≠ 0 then
    (if existence then .ok (.tri .F) else .error .EmptySetError)
  else
    match tblLookup tbl (v, k, l) with
    | some w => .ok (.tbl w)
    | none =>
      let e := k * (k - 1)
      let t := (l * (v - 1)).fdiv e
      if isPP v then
        if l = k - 1 then
          (if existence then .ok (.tri .T)
           else
             match cyclotomic_cosets K ((v - 1).fdiv k) none false with
             | .error pe => .error pe
             | .ok cc => .ok (.pair K cc))
        else if t = 1 ∧ v.fmod 4 = 3 ∧ k = (v - 1).fdiv 2 then
          (if existence then .ok (.tri .T)
           else
             match cyclotomic_cosets K 2 (some [K.one]) false with
             | .error pe => .error pe
             | .ok cc => .ok (.pair K cc))
        else if t = 1 ∧ v.fmod 8 = 5 ∧ k = (v - 1).fdiv 4 ∧ isSq ((v - 1).fdiv 4) then
          (if existence then .ok (.tri .T)
           else
             match cyclotomic_cosets K 4 (some [K.one]) false with
             | .error pe => .error pe
             | .ok cc => .ok (.pair K cc))
        else if t = 1 ∧ v.fmod 8 = 5 ∧ k = (v + 3).fdiv 4 ∧ isSq ((v - 9).fdiv 4) then
          (if existence then .ok (.tri .T)
           else
             match cyclotomic_cosets K 4 (some [K.one]) true with
             | .error pe => .error pe
             | .ok cc => .ok (.pair K cc))
        else if l ≠ 1 then .error .NotImplementedError
        else
          let x := K.gen
          if k.fmod 2 = 1 then
            -- Wilson (1972), Theorem 9
            let m := (k - 1).fdiv 2
            let xx := zpowK K x m
            let to_coset := tcPairs K m xx ((v - 1).fdiv m)
            let r := zpowK K x ((v - 1).fdiv k)
            match (nzdiRun K.zero
                ((xrange1 m).map (fun j => K.sub (npowK K r j) K.one))
                (dget to_coset) []).1 with
            | .error pe => .error pe
            | .ok true =>
              if existence then .ok (.tri .T)
              else
                let B := (List.range k.toNat).map (fun j => npowK K r j)
                dfWrap K (some ((List.range t.toNat).map (fun i =>
                  B.map (fun b => K.mul (zpowK K x ((i : Int) * m)) b)))) existence check
            | .ok false =>
              -- k odd is never 6, so the k == 6 search is skipped
              dfWrap K none existence check
          else
            -- Wilson (1972), Theorem 10
            let m := k.fdiv 2
            let xx := zpowK K x m
            let to_coset := tcPairs K m xx ((v - 1).fdiv m)
            let r := zpowK K x ((v - 1).fdiv (k - 1))
            match (nzdiRun K.zero
                (((List.range (m - 1).toNat).map (· + 1)).map
                  (fun j => K.sub (npowK K r j) K.one))
                (dget to_coset) [(0 : Int)]).1 with
            | .error pe => .error pe
            | .ok true =>
              if existence then .ok (.tri .T)
              else
                let B := K.zero :: (List.range (k - 1).toNat).map (fun j => npowK K r j)
                dfWrap K (some ((List.range t.toNat).map (fun i =>
                  B.map (fun b => K.mul (zpowK K x ((i : Int) * m)) b)))) existence check
            | .ok false =>
              if k = 6 then
                -- Wilson (1972), Theorem 11
                let r := zpowK K x ((v - 1).fdiv 3)
                let xx := npowK K x 5
                let to_coset := tcPairs K 5 xx ((v - 1).fdiv 5)
                match k6search K to_coset r (dkeys to_coset) with
                | .error pe => .error pe
                | .ok none => dfWrap K none existence check
                | .ok (some c) =>
                  if existence then .ok (.tri .T)
                  else
                    let B := [K.one, r, npowK K r 2, c, K.mul c r, K.mul c (npowK K r 2)]
                    dfWrap K (some ((List.range t.toNat).map (fun i =>
                      B.map (fun b => K.mul (zpowK K x ((i : Int) * 5)) b)))) existence check
              else dfWrap K none existence check
      else dfWrap K none existence check

/-! ## Concrete instances used by counterexamples and witnesses

`Z7F` models `GF(7)`: sage's `GF(7).multiplicative_generator()` is `3`,
and the multiplicative inverse of a unit `a` is `a^5` (since `a^6 = 1`).
`TrivG` is a trivial (one-element) additive group, such as `Zmod(1)`. -/

def Z7F : FieldCap (ZMod 7) :=
  { elements := (List.range 7).map (fun n => (n : ZMod 7))
    zero := 0
    one := 1
    add := fun a b => a + b
    mul := fun a b => a * b
    neg := fun a => -a
    inv := fun a => a * a * a * a * a
    gen := 3 }

def is7 : Int → Bool := fun n => decide (n = 7)

def sqAny : Int → Bool := fun _ => false

def TrivG : GroupCap Int :=
  { elements := [0], identity := 0, op := fun a b => a + b, inv := fun a => -a }

/-! ## Claims C2, C3, C4, C5, C10 -/

/-- Claim C2 (code bug): `difference_family(7, -1, 1)` returns the family
`[[], [], []]` through the Wilson odd-k search branch (the verification
gate passes because it infers `k = 0` and `l = 0` from the returned
family itself), yet `is_difference_family` rejects that family for the
requested parameters `(v, k, l) = (7, -1, 1)`.  So a pair returned by a
construction branch need not satisfy the verifier at the requested
parameters. -/
theorem difference_family_unverified_output :
    difference_family ([] : List ((Int × Int × Int) × Unit)) is7 sqAny Z7F 7 (-1) 1 false true
      = .ok (.pair Z7F [[], [], []]) ∧
    is_difference_family Z7F.toAdd [[], [], []] (some 7) (some (-1)) (some 1) = .ok false :=
  ⟨rfl, rfl⟩

/-- Claim C3 (code bug): the existence query `difference_family(7, 3, 4,
existence=True)` raises `NotImplementedError` — reached because 7 is a
prime power, `l = 4` is neither `1` nor `k - 1 = 2`, the parameters are
feasible, no single-block case matches and `(7,3,4)` is not a key of the
table — so existence queries are not total.  (Moreover `k` in `{0, 1}`
raises `ZeroDivisionError` in the feasibility check, see
`difference_family_feasibility_cex`, and a table hit returns a pair, see
`difference_family_table_existence`.) -/
theorem difference_family_existence_raises :
    difference_family ([] : List ((Int × Int × Int) × Unit)) is7 sqAny Z7F 7 3 4 true true
      = .error .NotImplementedError := rfl

/-- Claim C4 (code bug): when `(v, k, l)` passes the feasibility check
and is a key of the table, the call returns the table entry's value in
*both* modes; in particular with `existence=True` the result is the
opaque (group, family) value of the table and never the tri-state
`True`.  Shown on a table holding the key `(21, 5, 1)`. -/
theorem difference_family_table_existence :
    difference_family [(((21 : Int), (5 : Int), (1 : Int)), ())] is7 sqAny Z7F 21 5 1 true true
      = .ok (.tbl ()) ∧
    difference_family [(((21 : Int), (5 : Int), (1 : Int)), ())] is7 sqAny Z7F 21 5 1 false true
      = .ok (.tbl ()) ∧
    ∀ tr : Tri, (DFRes.tbl () : DFRes (ZMod 7) Unit) ≠ .tri tr :=
  ⟨rfl, rfl, fun _ h => DFRes.noConfusion h⟩

/-- Claim C5 counterexample: at `(v, k, l) = (3, 0, 1)` the claimed
hypothesis holds — `l*(v-1) mod k*(k-1) = 2 mod 0 = 2 ≠ 0` under the
usual convention `x mod 0 = x` — yet the existence query raises
`ZeroDivisionError` (Python evaluates `2 % 0`) instead of returning
`False`. -/
theorem difference_family_feasibility_cex :
    ((1 : Int) * ((3 : Int) - 1)).fmod ((0 : Int) * ((0 : Int) - 1)) ≠ 0 ∧
    difference_family ([] : List ((Int × Int × Int) × Unit)) is7 sqAny Z7F 3 0 1 true true
      = .error .ZeroDivisionError :=
  ⟨by decide, rfl⟩

/-- Claim C5 (amended): for every `(v, k, l)` with `k*(k-1) ≠ 0` (that
is, `k` not in `{0, 1}`) and `l*(v-1) mod k*(k-1) ≠ 0`, the existence
query returns `False` and construct mode raises `EmptySetError` —
uniformly in the table, the two arithmetic oracles, the field and the
`check` flag, i.e. before any other branch is consulted. -/
theorem difference_family_infeasible (α β : Type) [DecidableEq α]
    (tbl : List ((Int × Int × Int) × β)) (isPP isSq : Int → Bool)
    (K : FieldCap α) (v k l : Int)
    (hk : k * (k - 1) ≠ 0) (hmod : (l * (v - 1)).fmod (k * (k - 1)) ≠ 0) :
    (∀ ch : Bool, difference_family tbl isPP isSq K v k l true ch = .ok (.tri .F)) ∧
    (∀ ch : Bool, difference_family tbl isPP isSq K v k l false ch = .error .EmptySetError) := by
  constructor <;> intro ch <;>
    · unfold difference_family
      rw [if_neg hk, if_pos hmod]
      simp

theorem difference_family_infeasible_w :
    difference_family ([] : List ((Int × Int × Int) × Unit)) is7 sqAny Z7F 4 3 1 true true
      = .ok (.tri .F) ∧
    difference_family ([] : List ((Int × Int × Int) × Unit)) is7 sqAny Z7F 4 3 1 false true
      = .error .EmptySetError :=
  ⟨(difference_family_infeasible (ZMod 7) Unit [] is7 sqAny Z7F 4 3 1 (by decide) (by decide)).1 true,
   (difference_family_infeasible (ZMod 7) Unit [] is7 sqAny Z7F 4 3 1 (by decide) (by decide)).2 true⟩

/-- Claim C10 counterexample: on a group of cardinality 1 (for example
`Zmod(1)`) with `k` supplied and `D` empty, the call raises
`ZeroDivisionError` while inferring `l` (Python evaluates
`b*k*(k-1) % (v-1)` with `v - 1 = 0`) instead of returning `True`. -/
theorem is_difference_family_trivial_group :
    is_difference_family TrivG [] none (some 3) none = .error .ZeroDivisionError := rfl

/-- Claim C10 (amended): with `D` empty and `k` not supplied,
`is_difference_family(G, D)` raises `IndexError` on `len(D[0])`; with
`k` supplied, `D` empty, and `G` of cardinality at least 2 with its
identity among its enumerated elements, the call returns `True` (with
`l` inferred as `0`).  For a group of cardinality 1 the inference of `l`
divides by `v - 1 = 0` and raises `ZeroDivisionError` instead. -/
theorem is_difference_family_empty_family (α : Type) [DecidableEq α] :
    (∀ (G : GroupCap α) (lopt : Option Int),
      is_difference_family G [] none none lopt = .error .IndexError) ∧
    (∀ (G : GroupCap α) (k : Int), 2 ≤ G.elements.length →
      G.identity ∈ G.elements →
      is_difference_family G [] none (some k) none = .ok true) := by
  refine ⟨fun G lopt => rfl, fun G k h2 hid => ?_⟩
  have h1 : ((G.elements.length : Int) - 1) ≠ 0 := by omega
  simp [is_difference_family, idfK, idfBlocks, idfLambda, idfCore, h1, hid,
    allDiffs, checkDiffs]

theorem is_difference_family_empty_family_w :
    is_difference_family Z7F.toAdd ([] : List (List (ZMod 7))) none none none
      = .error .IndexError ∧
    is_difference_family Z7F.toAdd ([] : List (List (ZMod 7))) none (some 3) none
      = .ok true :=
  ⟨(is_difference_family_empty_family (ZMod 7)).1 Z7F.toAdd none,
   (is_difference_family_empty_family (ZMod 7)).2 Z7F.toAdd 3 (by decide) (by decide)⟩

/-! ## Claims C8, C9 -/

theorem nzdiRun_nil {α ι : Type} [DecidableEq α] [DecidableEq ι] (z : α)
    (f : α → Option ι) (imgs : List ι) :
    nzdiRun z ([] : List α) f imgs = (.ok true, imgs) := rfl

theorem nzdiRun_zero {α ι : Type} [DecidableEq α] [DecidableEq ι] {z e : α}
    (f : α → Option ι) (rest : List α) (imgs : List ι) (he : e = z) :
    nzdiRun z (e :: rest) f imgs = (.ok false, imgs) := by
  simp [nzdiRun, he]

theorem nzdiRun_keyerr {α ι : Type} [DecidableEq α] [DecidableEq ι] {z e : α}
    {f : α → Option ι} (rest : List α) (imgs : List ι) (he : e ≠ z)
    (hfe : f e = none) :
    nzdiRun z (e :: rest) f imgs = (.error .KeyError, imgs) := by
  simp [nzdiRun, he, hfe]

theorem nzdiRun_dup {α ι : Type} [DecidableEq α] [DecidableEq ι] {z e : α}
    {f : α → Option ι} {i : ι} (rest : List α) {imgs : List ι} (he : e ≠ z)
    (hfe : f e = some i) (hi : i ∈ imgs) :
    nzdiRun z (e :: rest) f imgs = (.ok false, imgs) := by
  simp [nzdiRun, he, hfe, hi]

theorem nzdiRun_step {α ι : Type} [DecidableEq α] [DecidableEq ι] {z e : α}
    {f : α → Option ι} {i : ι} (rest : List α) {imgs : List ι} (he : e ≠ z)
    (hfe : f e = some i) (hi : i ∉ imgs) :
    nzdiRun z (e :: rest) f imgs = nzdiRun z rest f (imgs ++ [i]) := by
  simp [nzdiRun, he, hfe, hi]

theorem takenElems_zero {α ι : Type} [DecidableEq α] [DecidableEq ι] {z e : α}
    (f : α → Option ι) (rest : List α) (imgs : List ι) (he : e = z) :
    takenElems z f (e :: rest) imgs = [] := by
  simp [takenElems, he]

theorem takenElems_keyerr {α ι : Type} [DecidableEq α] [DecidableEq ι] {z e : α}
    {f : α → Option ι} (rest : List α) (imgs : List ι) (he : e ≠ z)
    (hfe : f e = none) :
    takenElems z f (e :: rest) imgs = [] := by
  simp [takenElems, he, hfe]

theorem takenElems_dup {α ι : Type} [DecidableEq α] [DecidableEq ι] {z e : α}
    {f : α → Option ι} {i : ι} (rest : List α) {imgs : List ι} (he : e ≠ z)
    (hfe : f e = some i) (hi : i ∈ imgs) :
    takenElems z f (e :: rest) imgs = [] := by
  simp [takenElems, he, hfe, hi]

theorem takenElems_step {α ι : Type} [DecidableEq α] [DecidableEq ι] {z e : α}
    {f : α → Option ι} {i : ι} (rest : List α) {imgs : List ι} (he : e ≠ z)
    (hfe : f e = some i) (hi : i ∉ imgs) :
    takenElems z f (e :: rest) imgs = e :: takenElems z f rest (imgs ++ [i]) := by
  simp [takenElems, he, hfe, hi]

theorem nzdiRun_false_append {α ι : Type} [DecidableEq α] [DecidableEq ι]
    (z : α) (f : α → Option ι) :
    ∀ (xs : List α) (imgs : List ι) (ys : List α) (s : List ι),
      nzdiRun z xs f imgs = (.ok false, s) →
      nzdiRun z (xs ++ ys) f imgs = (.ok false, s) := by
  intro xs
  induction xs with
  | nil =>
    intro imgs ys s h
    rw [nzdiRun_nil] at h
    cases h
  | cons e rest ih =>
    intro imgs ys s h
    rw [List.cons_append]
    by_cases he : e = z
    · rw [nzdiRun_zero f rest imgs he] at h
      rw [nzdiRun_zero f (rest ++ ys) imgs he]
      exact h
    · cases hfe : f e with
      | none =>
        rw [nzdiRun_keyerr rest imgs he hfe] at h
        cases h
      | some i =>
        by_cases hi : i ∈ imgs
        · rw [nzdiRun_dup rest he hfe hi] at h
          rw [nzdiRun_dup (rest ++ ys) he hfe hi]
          exact h
        · rw [nzdiRun_step rest he hfe hi] at h
          rw [nzdiRun_step (rest ++ ys) he hfe hi]
          exact ih (imgs ++ [i]) ys s h

theorem nzdiRun_true_iff {α ι : Type} [DecidableEq α] [DecidableEq ι]
    (z : α) (f : α → Option ι) :
    ∀ (elts : List α) (imgs : List ι),
      (∀ e ∈ elts, e ≠ z → f e ≠ none) →
      ((nzdiRun z elts f imgs).1 = .ok true ↔
        ((∀ e ∈ elts, e ≠ z) ∧ (elts.map f).Nodup ∧
          ∀ e ∈ elts, ∀ i ∈ imgs, f e ≠ some i)) := by
  intro elts
  induction elts with
  | nil => intro imgs _; simp [nzdiRun_nil]
  | cons e rest ih =>
    intro imgs hf
    by_cases he : e = z
    · rw [nzdiRun_zero f rest imgs he]
      simp [he]
    · cases hfe : f e with
      | none => exact absurd hfe (hf e (by simp) he)
      | some i =>
        by_cases hi : i ∈ imgs
        · rw [nzdiRun_dup rest he hfe hi]
          constructor
          · intro h; cases h
          · rintro ⟨-, -, h3⟩
            exact absurd hfe (h3 e (by simp) i hi)
        · rw [nzdiRun_step rest he hfe hi]
          rw [ih (imgs ++ [i]) (fun a ha hz => hf a (by simp [ha]) hz)]
          constructor
          · rintro ⟨h1, h2, h3⟩
            refine ⟨?_, ?_, ?_⟩
            · intro a ha
              rcases List.mem_cons.1 ha with rfl | ha
              · exact he
              · exact h1 a ha
            · rw [List.map_cons, List.nodup_cons]
              refine ⟨?_, h2⟩
              rw [List.mem_map]
              rintro ⟨a, ha, hfa⟩
              exact (h3 a ha i (by simp)) (hfa.trans hfe)
            · intro a ha j hj
              rcases List.mem_cons.1 ha with rfl | ha
              · rw [hfe]
                intro hcon
                exact hi (by cases hcon; exact hj)
              · exact h3 a ha j (by simp [hj])
          · rintro ⟨h1, h2, h3⟩
            rw [List.map_cons, List.nodup_cons, List.mem_map] at h2
            refine ⟨fun a ha => h1 a (by simp [ha]), h2.2, ?_⟩
            intro a ha j hj
            rcases List.mem_append.1 hj with hj | hj
            · exact h3 a (by simp [ha]) j hj
            · rw [List.mem_singleton] at hj
              subst hj
              intro hcon
              exact h2.1 ⟨a, ha, hcon.trans hfe.symm⟩

/-- Claim C8: `_nonzero_and_have_distinct_images(elts, f, images)` — when
`f` is defined on every nonzero element of the sequence — returns `True`
if and only if every element of `elts` is nonzero and the images of the
elements under `f` are pairwise distinct among themselves and distinct
from every forbidden index in `images`; and it stops consuming the
sequence at the first violation: a rejected prefix forces the same
rejection (with the same final image set) on every extension of the
sequence. -/
theorem nzdi_spec (α ι : Type) [DecidableEq α] [DecidableEq ι] (z : α)
    (f : α → Option ι) (elts : List α) (imgs : List ι)
    (hf : ∀ e ∈ elts, e ≠ z → f e ≠ none) :
    ((nzdiRun z elts f imgs).1 = .ok true ↔
      ((∀ e ∈ elts, e ≠ z) ∧ (elts.map f).Nodup ∧
        ∀ e ∈ elts, ∀ i ∈ imgs, f e ≠ some i)) ∧
    (∀ (xs ys : List α) (s : List ι), nzdiRun z xs f imgs = (.ok false, s) →
      nzdiRun z (xs ++ ys) f imgs = (.ok false, s)) :=
  ⟨nzdiRun_true_iff z f elts imgs hf,
   fun xs ys s h => nzdiRun_false_append z f xs imgs ys s h⟩

def fW : Int → Option Int :=
  fun x => if x = 1 then some 10 else if x = 2 then some 20 else none

theorem nzdi_spec_w : (nzdiRun (0 : Int) [1, 2] fW [30]).1 = .ok true :=
  (nzdi_spec Int Int 0 fW [1, 2] [30] (by decide)).1.mpr (by decide)

theorem nzdiRun_snd {α ι : Type} [DecidableEq α] [DecidableEq ι]
    (z : α) (f : α → Option ι) :
    ∀ (elts : List α) (imgs : List ι),
      (nzdiRun z elts f imgs).2
        = imgs ++ (takenElems z f elts imgs).filterMap f := by
  intro elts
  induction elts with
  | nil => intro imgs; simp [nzdiRun_nil, takenElems]
  | cons e rest ih =>
    intro imgs
    by_cases he : e = z
    · rw [nzdiRun_zero f rest imgs he, takenElems_zero f rest imgs he]
      simp
    · cases hfe : f e with
      | none =>
        rw [nzdiRun_keyerr rest imgs he hfe, takenElems_keyerr rest imgs he hfe]
        simp
      | some i =>
        by_cases hi : i ∈ imgs
        · rw [nzdiRun_dup rest he hfe hi, takenElems_dup rest he hfe hi]
          simp
        · rw [nzdiRun_step rest he hfe hi, takenElems_step rest he hfe hi,
            ih (imgs ++ [i])]
          simp [hfe]

theorem nzdiRun_taken_of_true {α ι : Type} [DecidableEq α] [DecidableEq ι]
    (z : α) (f : α → Option ι) :
    ∀ (elts : List α) (imgs : List ι),
      (nzdiRun z elts f imgs).1 = .ok true →
      takenElems z f elts imgs = elts := by
  intro elts
  induction elts with
  | nil => intro imgs _; rfl
  | cons e rest ih =>
    intro imgs h
    by_cases he : e = z
    · rw [nzdiRun_zero f rest imgs he] at h
      cases h
    · cases hfe : f e with
      | none =>
        rw [nzdiRun_keyerr rest imgs he hfe] at h
        cases h
      | some i =>
        by_cases hi : i ∈ imgs
        · rw [nzdiRun_dup rest he hfe hi] at h
          cases h
        · rw [nzdiRun_step rest he hfe hi] at h
          rw [takenElems_step rest he hfe hi, ih (imgs ++ [i]) h]

/-- Claim C9: the function mutates the caller's `images` set in place:
after any call the set holds its initial content followed by `f[e]` for
every element `e` consumed before the first violation, and when the
result is `True` that is `f[e]` for every element of the sequence.  In
particular the forbidden-image set is not left unchanged by a successful
call on a nonempty sequence. -/
theorem nzdi_frame (α ι : Type) [DecidableEq α] [DecidableEq ι] (z : α)
    (f : α → Option ι) (elts : List α) (imgs : List ι) :
    (nzdiRun z elts f imgs).2
      = imgs ++ (takenElems z f elts imgs).filterMap f ∧
    ((nzdiRun z elts f imgs).1 = .ok true →
      (nzdiRun z elts f imgs).2 = imgs ++ elts.filterMap f) := by
  refine ⟨nzdiRun_snd z f elts imgs, fun h => ?_⟩
  rw [nzdiRun_snd z f elts imgs, nzdiRun_taken_of_true z f elts imgs h]

theorem nzdi_frame_w : (nzdiRun (0 : Int) [1, 2] fW [30]).2 = [30] ++ [1, 2].filterMap fW :=
  (nzdi_frame Int Int 0 fW [1, 2] [30]).2 (by rfl)

/-! ## Claim C6 -/

/-- Claim C6 counterexample: `difference_family(7, 3, 2)` goes through
the direct cyclotomic branch (7 is a prime power and `l = k - 1 = 2`)
and returns the cyclotomic cosets `[[1, 2, 4], [3, 6, 5]]` of index
`(v-1)/k = 2` — that is `b = (v-1)/k = 2` blocks, not `b = k = 3` blocks
as the claim states. -/
theorem df_cyclotomic_cex :
    difference_family ([] : List ((Int × Int × Int) × Unit)) is7 sqAny Z7F 7 3 2 false true
      = .ok (.pair Z7F [[1, 2, 4], [3, 6, 5]]) ∧
    ([[1, 2, 4], [3, 6, 5]] : List (List (ZMod 7))).length ≠ 3 :=
  ⟨rfl, by decide⟩

/-- Claim C6 (amended): for every prime power `v` with `2 ≤ k`,
`l = k - 1`, `k ∣ v - 1` (the feasibility condition for this `l`),
`(v, k, k-1)` not in the table, and `(v-1)/k ≥ 2`, the call
`difference_family(v, k, k-1, existence=False)` returns the field `K`
together with all cyclotomic cosets of index `(v-1)/k`, yielding
`b = (v-1)/k` blocks (not `k` blocks), each of length `k`, with
`l = k - 1` as requested; the construction succeeds with no search.
(For `(v-1)/k = 1`, i.e. `k = v - 1`, the call instead raises
`AssertionError` inside `cyclotomic_cosets`, since `q % 1 = 0 ≠ 1`.) -/
theorem df_cyclotomic (α β : Type) [DecidableEq α]
    (tbl : List ((Int × Int × Int) × β)) (isPP isSq : Int → Bool)
    (K : FieldCap α) (v k : Int)
    (hq : (K.elements.length : Int) = v)
    (hpp : isPP v = true)
    (htbl : tblLookup tbl (v, k, k - 1) = none)
    (hk2 : 2 ≤ k) (hdvd : k ∣ v - 1) (he2 : 2 ≤ (v - 1).fdiv k) :
    ∃ cc, cyclotomic_cosets K ((v - 1).fdiv k) none false = .ok cc ∧
      difference_family tbl isPP isSq K v k (k - 1) false true = .ok (.pair K cc) ∧
      (cc.length : Int) = (v - 1).fdiv k ∧ ∀ c ∈ cc, (c.length : Int) = k := by
  obtain ⟨c, hc⟩ := hdvd
  have hk0 : k ≠ 0 := by omega
  have hfdiv : (v - 1).fdiv k = c := by rw [hc]; exact Int.mul_fdiv_cancel_left c hk0
  have hc2 : (2 : Int) ≤ c := by rw [hfdiv] at he2; exact he2
  have hc0 : c ≠ 0 := by omega
  have hv : v = k * c + 1 := by omega
  have h1 : ((K.elements.length : Int)).fmod c = 1 := by
    rw [hq, Int.fmod_eq_emod _ (by omega), hv,
      show k * c + 1 = 1 + c * k by ring, Int.add_mul_emod_self_left]
    exact Int.emod_eq_of_lt (by omega) (by omega)
  have hf : ((K.elements.length : Int) - 1).fdiv c = k := by
    rw [hq, show v - 1 = k * c from hc, Int.mul_fdiv_cancel _ hc0]
  have hcy : cyclotomic_cosets K c none false
      = .ok (((List.range c.toNat).map (fun i => npowK K K.gen i)).map (fun y =>
          (List.range k.toNat).map (fun s => K.mul y (npowK K (zpowK K K.gen c) s)))) := by
    simp only [cyclotomic_cosets]
    rw [if_neg hc0, if_neg (not_ne_iff.2 h1), hf]
    rfl
  have hkk0 : ¬(k * (k - 1) = 0) := by
    intro h
    rcases mul_eq_zero.1 h with h | h <;> omega
  have hfeas : ¬(((k - 1) * (v - 1)).fmod (k * (k - 1)) ≠ 0) := by
    rw [show (k - 1) * (v - 1) = k * (k - 1) * c by rw [hc]; ring,
      Int.fmod_eq_emod _ (mul_nonneg (by omega) (by omega)),
      Int.mul_emod_right]
    exact fun h => h rfl
  rw [hfdiv]
  refine ⟨_, hcy, ?_, ?_, ?_⟩
  · simp only [difference_family, if_neg hkk0, if_neg hfeas, htbl, hpp,
      if_true, hfdiv, hcy]
    rfl
  · rw [List.length_map, List.length_map, List.length_range]
    rw [Int.toNat_of_nonneg (by omega)]
  · intro b hb
    rw [List.mem_map] at hb
    obtain ⟨i, -, rfl⟩ := hb
    rw [List.length_map, List.length_range, Int.toNat_of_nonneg (by omega)]

/-! ## Claim C7 -/

/-- Claim C7 counterexample: `e = 1` divides `q - 1`, but
`cyclotomic_cosets(GF(7), 1)` raises `AssertionError`: the guard
`assert q % e == 1` evaluates `7 % 1 = 0`.  So the claim fails for the
divisor `e = 1`. -/
theorem cyclotomic_cosets_e_one :
    (1 : Int) ∣ ((Z7F.elements.length : Int) - 1) ∧
    cyclotomic_cosets Z7F 1 none false = .error .AssertionError :=
  ⟨⟨6, by decide⟩, rfl⟩

theorem npowK_mul_npowK (α : Type) (K : FieldCap α)
    (hpow : ∀ a b : Nat, K.mul (npowK K K.gen a) (npowK K K.gen b) = npowK K K.gen (a + b)) :
    ∀ a b : Nat, npowK K (npowK K K.gen a) b = npowK K K.gen (a * b) := by
  intro a b
  induction b with
  | zero => rfl
  | succ n ih =>
    show K.mul (npowK K (npowK K K.gen a) n) (npowK K K.gen a) = _
    rw [ih, hpow, Nat.mul_succ]

/-- Claim C7 (amended): for every divisor `e ≥ 2` of `q - 1` (the code
asserts `q % e == 1`, which rules out `e = 1`), `cyclotomic_cosets(K, e)`
with no restricting subset and `with_zero=False` returns exactly `e`
cosets, each of size `(q-1)/e`, whose concatenation has no repeated
element and whose union as a set is exactly the nonzero elements of `K`.
The hypotheses state the contract of the external field: powers of the
generator multiply by adding exponents, and `gen` enumerates the nonzero
elements injectively along `0 ≤ n < q - 1`. -/
theorem cyclotomic_cosets_partition (α : Type) [DecidableEq α] (K : FieldCap α) (e : Int)
    (he2 : 2 ≤ e)
    (hdvd : e ∣ (K.elements.length : Int) - 1)
    (hpow : ∀ a b : Nat, K.mul (npowK K K.gen a) (npowK K K.gen b) = npowK K K.gen (a + b))
    (hmem : ∀ n < K.elements.length - 1,
      npowK K K.gen n ∈ K.elements ∧ npowK K K.gen n ≠ K.zero)
    (hinj : ∀ m < K.elements.length - 1, ∀ n < K.elements.length - 1,
      npowK K K.gen m = npowK K K.gen n → m = n)
    (hsurj : ∀ a ∈ K.elements, a ≠ K.zero →
      ∃ n ∈ List.range (K.elements.length - 1), npowK K K.gen n = a) :
    ∃ cc, cyclotomic_cosets K e none false = .ok cc ∧
      (cc.length : Int) = e ∧
      (∀ c ∈ cc, (c.length : Int) = ((K.elements.length : Int) - 1).fdiv e) ∧
      cc.flatten.Nodup ∧
      (∀ a, a ∈ cc.flatten ↔ a ∈ K.elements ∧ a ≠ K.zero) := by
  obtain ⟨c, hc⟩ := hdvd
  have he0 : e ≠ 0 := by omega
  have hcnn : (0 : Int) ≤ c := by
    by_contra h
    push_neg at h
    nlinarith [hc, he2, Int.natCast_nonneg K.elements.length]
  have hq1 : 1 ≤ K.elements.length := by
    by_contra h
    push_neg at h
    have h0 : K.elements.length = 0 := by omega
    rw [h0] at hc
    simp only [Nat.cast_zero, zero_sub] at hc
    nlinarith [hc, hcnn, he2]
  have hen : (e.toNat : Int) = e := Int.toNat_of_nonneg (by omega)
  have hcN : (c.toNat : Int) = c := Int.toNat_of_nonneg hcnn
  have hqen : K.elements.length - 1 = e.toNat * c.toNat := by
    have h2 : ((K.elements.length - 1 : Nat) : Int) = ((e.toNat * c.toNat : Nat) : Int) := by
      rw [Nat.cast_sub hq1, Nat.cast_mul, hen, hcN, Nat.cast_one]
      exact hc
    exact_mod_cast h2
  have h1 : ((K.elements.length : Int)).fmod e = 1 := by
    have hv : (K.elements.length : Int) = 1 + e * c := by linarith [hc]
    rw [Int.fmod_eq_emod _ (by omega), hv, Int.add_mul_emod_self_left]
    exact Int.emod_eq_of_lt (by omega) (by omega)
  have hf : ((K.elements.length : Int) - 1).fdiv e = c := by
    rw [hc]
    exact Int.mul_fdiv_cancel_left c he0
  have hz : zpowK K K.gen e = npowK K K.gen e.toNat := by
    rw [zpowK, if_pos (by omega : (0 : Int) ≤ e)]
  have hcy : cyclotomic_cosets K e none false
      = .ok (((List.range e.toNat).map (fun i => npowK K K.gen i)).map (fun y =>
          (List.range c.toNat).map (fun s => K.mul y (npowK K (zpowK K K.gen e) s)))) := by
    simp only [cyclotomic_cosets]
    rw [if_neg he0, if_neg (not_ne_iff.2 h1), hf]
    rfl
  have hnn := npowK_mul_npowK α K hpow
  have hcc2 : (((List.range e.toNat).map (fun i => npowK K K.gen i)).map (fun y =>
          (List.range c.toNat).map (fun s => K.mul y (npowK K (zpowK K K.gen e) s))))
      = (List.range e.toNat).map (fun i => (List.range c.toNat).map (fun s =>
          npowK K K.gen (i + e.toNat * s))) := by
    rw [List.map_map]
    apply List.map_congr_left
    intro i hi
    apply List.map_congr_left
    intro s hs
    show K.mul (npowK K K.gen i) (npowK K (zpowK K K.gen e) s) = _
    rw [hz, hnn, hpow]
  rw [hcc2] at hcy
  -- the exponent list underlying the concatenation of the cosets
  have hflat : ((List.range e.toNat).map (fun i => (List.range c.toNat).map (fun s =>
          npowK K K.gen (i + e.toNat * s)))).flatten
      = ((List.range e.toNat).flatMap (fun i => (List.range c.toNat).map (fun s =>
          i + e.toNat * s))).map (npowK K K.gen) := by
    have hinner : ∀ i : Nat,
        (List.range c.toNat).map (fun s => npowK K K.gen (i + e.toNat * s))
          = ((List.range c.toNat).map (fun s => i + e.toNat * s)).map (npowK K K.gen) := by
      intro i
      rw [List.map_map]
      rfl
    rw [List.map_congr_left (fun i _ => hinner i)]
    exact (List.map_flatMap _ _ _).symm
  have hEbound : ∀ n ∈ (List.range e.toNat).flatMap (fun i =>
      (List.range c.toNat).map (fun s => i + e.toNat * s)), n < K.elements.length - 1 := by
    intro n hn
    rw [List.mem_flatMap] at hn
    obtain ⟨i, hi, hn⟩ := hn
    rw [List.mem_map] at hn
    obtain ⟨s, hs, rfl⟩ := hn
    rw [List.mem_range] at hi hs
    calc i + e.toNat * s < e.toNat * (s + 1) := by rw [Nat.mul_succ]; omega
      _ ≤ e.toNat * c.toNat := Nat.mul_le_mul (Nat.le_refl _) (by omega)
      _ = K.elements.length - 1 := hqen.symm
  have hEnd : ((List.range e.toNat).flatMap (fun i =>
      (List.range c.toNat).map (fun s => i + e.toNat * s))).Nodup := by
    rw [List.nodup_flatMap]
    constructor
    · intro i hi
      refine List.Nodup.map ?_ (List.nodup_range c.toNat)
      intro s1 s2 h
      have h2 : e.toNat * s1 = e.toNat * s2 := Nat.add_left_cancel h
      exact Nat.eq_of_mul_eq_mul_left (by omega) h2
    · refine List.Pairwise.imp_of_mem ?_ (List.pairwise_lt_range e.toNat)
      intro i j hi hj hij
      rw [List.mem_range] at hi hj
      intro a hai haj
      rw [List.mem_map] at hai haj
      obtain ⟨s1, -, h1a⟩ := hai
      obtain ⟨s2, -, h2a⟩ := haj
      have hmod : (i + e.toNat * s1) % e.toNat = (j + e.toNat * s2) % e.toNat := by
        rw [h1a, h2a]
      rw [Nat.add_mul_mod_self_left, Nat.add_mul_mod_self_left,
        Nat.mod_eq_of_lt hi, Nat.mod_eq_of_lt hj] at hmod
      omega
  have hEmem : ∀ n, n ∈ (List.range e.toNat).flatMap (fun i =>
      (List.range c.toNat).map (fun s => i + e.toNat * s)) ↔
      n < K.elements.length - 1 := by
    intro n
    constructor
    · exact hEbound n
    · intro hn
      rw [List.mem_flatMap]
      refine ⟨n % e.toNat, ?_, ?_⟩
      · rw [List.mem_range]
        exact Nat.mod_lt _ (by omega)
      · rw [List.mem_map]
        refine ⟨n / e.toNat, ?_, ?_⟩
        · rw [List.mem_range, Nat.div_lt_iff_lt_mul (by omega : 0 < e.toNat)]
          rw [hqen] at hn
          calc n < e.toNat * c.toNat := hn
            _ = c.toNat * e.toNat := Nat.mul_comm _ _
        · exact Nat.mod_add_div n e.toNat
  rw [hf]
  refine ⟨_, hcy, ?_, ?_, ?_, ?_⟩
  · rw [List.length_map, List.length_range, hen]
  · intro cb hcb
    rw [List.mem_map] at hcb
    obtain ⟨i, -, rfl⟩ := hcb
    rw [List.length_map, List.length_range, hcN]
  · rw [hflat]
    refine List.Nodup.map_on ?_ hEnd
    intro x hx y hy hxy
    exact hinj x (hEbound x hx) y (hEbound y hy) hxy
  · intro a
    rw [hflat, List.mem_map]
    constructor
    · rintro ⟨n, hn, rfl⟩
      exact hmem n ((hEmem n).1 hn)
    · rintro ⟨ha, haz⟩
      obtain ⟨n, hn, rfl⟩ := hsurj a ha haz
      rw [List.mem_range] at hn
      exact ⟨n, (hEmem n).2 hn, rfl⟩

theorem npowK_Z7F (x : ZMod 7) : ∀ n : Nat, npowK Z7F x n = x ^ n := by
  intro n
  induction n with
  | zero => rfl
  | succ n ih =>
    show Z7F.mul (npowK Z7F x n) x = x ^ (n + 1)
    rw [ih, pow_succ]
    rfl

theorem hpow_Z7F : ∀ a b : Nat,
    Z7F.mul (npowK Z7F Z7F.gen a) (npowK Z7F Z7F.gen b) = npowK Z7F Z7F.gen (a + b) := by
  intro a b
  rw [npowK_Z7F, npowK_Z7F, npowK_Z7F]
  show (3 : ZMod 7) ^ a * 3 ^ b = 3 ^ (a + b)
  rw [pow_add]

theorem cyclotomic_cosets_partition_w :
    ∃ cc, cyclotomic_cosets Z7F 2 none false = .ok cc ∧
      (cc.length : Int) = 2 ∧
      (∀ c ∈ cc, (c.length : Int) = ((Z7F.elements.length : Int) - 1).fdiv 2) ∧
      cc.flatten.Nodup ∧
      (∀ a, a ∈ cc.flatten ↔ a ∈ Z7F.elements ∧ a ≠ Z7F.zero) :=
  cyclotomic_cosets_partition (ZMod 7) Z7F 2 (by decide) (by decide) hpow_Z7F
    (by decide) (by decide) (by decide)

theorem df_cyclotomic_w :
    ∃ cc, cyclotomic_cosets Z7F (((7 : Int) - 1).fdiv 3) none false = .ok cc ∧
      difference_family ([] : List ((Int × Int × Int) × Unit)) is7 sqAny Z7F 7 3 ((3 : Int) - 1) false true
        = .ok (.pair Z7F cc) ∧
      (cc.length : Int) = ((7 : Int) - 1).fdiv 3 ∧ ∀ c ∈ cc, (c.length : Int) = 3 :=
  df_cyclotomic (ZMod 7) Unit [] is7 sqAny Z7F 7 3 (by decide) (by decide) rfl
    (by decide) (by decide) (by decide)

/-! ## Claim C1: infrastructure -/

theorem checkDiffs_nil {α : Type} [DecidableEq α] (G : GroupCap α) (l : Int)
    (c : α → Int) : checkDiffs G l [] c = some true := rfl

theorem checkDiffs_id {α : Type} [DecidableEq α] {G : GroupCap α} {l : Int} {g : α}
    (rest : List α) (c : α → Int) (hg : g = G.identity) :
    checkDiffs G l (g :: rest) c = some false := by
  simp [checkDiffs, hg]

theorem checkDiffs_notmem {α : Type} [DecidableEq α] {G : GroupCap α} {l : Int} {g : α}
    (rest : List α) (c : α → Int) (hg : g ≠ G.identity) (hm : g ∉ G.elements) :
    checkDiffs G l (g :: rest) c = none := by
  simp [checkDiffs, hg, hm]

theorem checkDiffs_exceed {α : Type} [DecidableEq α] {G : GroupCap α} {l : Int} {g : α}
    {c : α → Int} (rest : List α) (hg : g ≠ G.identity) (hm : g ∈ G.elements)
    (hx : c g + 1 > l) :
    checkDiffs G l (g :: rest) c = some false := by
  simp [checkDiffs, hg, hm, hx]

theorem checkDiffs_step {α : Type} [DecidableEq α] {G : GroupCap α} {l : Int} {g : α}
    {c : α → Int} (rest : List α) (hg : g ≠ G.identity) (hm : g ∈ G.elements)
    (hx : ¬(c g + 1 > l)) :
    checkDiffs G l (g :: rest) c
      = checkDiffs G l rest (fun h => if h = g then c g + 1 else c h) := by
  simp [checkDiffs, hg, hm, hx]

/-- The counter loop returns `True` exactly when no difference is the
identity, every difference is a counter key, and no total count exceeds
`l` beyond the counts already accumulated in `c`. -/
theorem checkDiffs_eq_true (α : Type) [DecidableEq α] (G : GroupCap α) (l : Int) :
    ∀ (ds : List α) (c : α → Int),
      (checkDiffs G l ds c = some true ↔
        ∀ g ∈ ds, g ≠ G.identity ∧ g ∈ G.elements ∧ c g + (ds.count g : Int) ≤ l) := by
  intro ds
  induction ds with
  | nil => intro c; simp [checkDiffs_nil]
  | cons g0 rest ih =>
    intro c
    by_cases hg : g0 = G.identity
    · rw [checkDiffs_id rest c hg]
      constructor
      · intro h; cases h
      · intro h; exact absurd hg (h g0 (List.mem_cons_self g0 rest)).1
    · by_cases hm : g0 ∈ G.elements
      · by_cases hx : c g0 + 1 > l
        · rw [checkDiffs_exceed rest hg hm hx]
          constructor
          · intro h; cases h
          · intro h
            have h3 := (h g0 (List.mem_cons_self g0 rest)).2.2
            rw [List.count_cons_self] at h3
            push_cast at h3
            omega
        · rw [checkDiffs_step rest hg hm hx,
            ih (fun h => if h = g0 then c g0 + 1 else c h)]
          constructor
          · intro h g hgmem
            rcases List.mem_cons.1 hgmem with rfl | hgr
            · refine ⟨hg, hm, ?_⟩
              rw [List.count_cons_self]
              by_cases hgin : g ∈ rest
              · have h3 := (h g hgin).2.2
                rw [if_pos rfl] at h3
                push_cast
                omega
              · rw [List.count_eq_zero.2 hgin]
                push_cast
                omega
            · obtain ⟨h1, h2, h3⟩ := h g hgr
              refine ⟨h1, h2, ?_⟩
              by_cases hgg : g = g0
              · subst hgg
                rw [if_pos rfl] at h3
                rw [List.count_cons_self]
                push_cast at h3 ⊢
                omega
              · rw [if_neg hgg] at h3
                rw [List.count_cons_of_ne hgg]
                exact h3
          · intro h g hgr
            obtain ⟨h1, h2, h3⟩ := h g (List.mem_cons_of_mem g0 hgr)
            refine ⟨h1, h2, ?_⟩
            by_cases hgg : g = g0
            · subst hgg
              rw [if_pos rfl]
              rw [List.count_cons_self] at h3
              push_cast at h3 ⊢
              omega
            · rw [if_neg hgg]
              rw [List.count_cons_of_ne hgg] at h3
              exact h3
      · rw [checkDiffs_notmem rest c hg hm]
        constructor
        · intro h; cases h
        · intro h
          exact absurd (h g0 (List.mem_cons_self g0 rest)).2.1 hm

/-- When every difference lies in the enumerated elements, the counter
loop never raises `KeyError`. -/
theorem checkDiffs_isSome (α : Type) [DecidableEq α] (G : GroupCap α) (l : Int) :
    ∀ (ds : List α) (c : α → Int), (∀ g ∈ ds, g ∈ G.elements) →
      ∃ b, checkDiffs G l ds c = some b := by
  intro ds
  induction ds with
  | nil => intro c _; exact ⟨true, rfl⟩
  | cons g0 rest ih =>
    intro c hmem
    by_cases hg : g0 = G.identity
    · exact ⟨false, checkDiffs_id rest c hg⟩
    · have hm : g0 ∈ G.elements := hmem g0 (List.mem_cons_self g0 rest)
      by_cases hx : c g0 + 1 > l
      · exact ⟨false, checkDiffs_exceed rest hg hm hx⟩
      · obtain ⟨b, hb⟩ := ih (fun h => if h = g0 then c g0 + 1 else c h)
          (fun g hgr => hmem g (List.mem_cons_of_mem g0 hgr))
        exact ⟨b, (checkDiffs_step rest hg hm hx).trans hb⟩

theorem mem_allDiffs {α : Type} (G : GroupCap α) (kn : Nat) (D : List (List α)) (g : α) :
    g ∈ allDiffs G kn D ↔ ∃ d, d ∈ D ∧ ∃ i, i < kn ∧ ∃ j, (j < kn ∧ j ≠ i) ∧
      G.op (d.getD i G.identity) (G.inv (d.getD j G.identity)) = g := by
  simp [allDiffs, blockDiffs, List.mem_flatMap, List.mem_map, List.mem_filter,
    List.mem_range]

theorem getD_lt {α : Type} (d : List α) (i : Nat) (dflt : α) (h : i < d.length) :
    d.getD i dflt = d.get ⟨i, h⟩ := by
  rw [List.getD_eq_getElem?_getD, List.getElem?_eq_getElem h]
  rfl

theorem length_filter_ne (k i : Nat) (hi : i < k) :
    ((List.range k).filter (fun j => decide (j ≠ i))).length = k - 1 := by
  induction k with
  | zero => exact absurd hi (Nat.not_lt_zero i)
  | succ n ih =>
    rw [List.range_succ, List.filter_append, List.length_append]
    by_cases h : i < n
    · rw [ih h]
      have h1 : (List.filter (fun j => decide (j ≠ i)) [n]).length = 1 := by
        have : n ≠ i := by omega
        simp [List.filter, this]
      omega
    · have hin : i = n := by omega
      subst hin
      have h1 : (List.range i).filter (fun j => decide (j ≠ i)) = List.range i := by
        rw [List.filter_eq_self]
        intro a ha
        rw [List.mem_range] at ha
        simp
        omega
      have h2 : (List.filter (fun j => decide (j ≠ i)) [i]).length = 0 := by simp
      rw [h1, h2, List.length_range]
      omega

theorem blockDiffs_length {α : Type} (G : GroupCap α) (kn : Nat) (d : List α) :
    (blockDiffs G kn d).length = kn * (kn - 1) := by
  rw [blockDiffs, List.length_flatMap]
  have hcg : ∀ i ∈ List.range kn,
      (List.length ∘ fun i => ((List.range kn).filter (fun j => decide (j ≠ i))).map
        (fun j => G.op (d.getD i G.identity) (G.inv (d.getD j G.identity)))) i
        = kn - 1 := by
    intro i hi
    rw [List.mem_range] at hi
    show (((List.range kn).filter (fun j => decide (j ≠ i))).map _).length = kn - 1
    rw [List.length_map]
    exact length_filter_ne kn i hi
  rw [List.map_congr_left hcg, List.map_const', List.sum_replicate, smul_eq_mul,
    List.length_range]

theorem allDiffs_length {α : Type} (G : GroupCap α) (kn : Nat) (D : List (List α)) :
    (allDiffs G kn D).length = D.length * (kn * (kn - 1)) := by
  rw [allDiffs, List.length_flatMap]
  have hcg : ∀ d ∈ D, (List.length ∘ blockDiffs G kn) d = kn * (kn - 1) := by
    intro d _
    exact blockDiffs_length G kn d
  rw [List.map_congr_left hcg, List.map_const', List.sum_replicate, smul_eq_mul]

theorem sum_count_toFinset (α : Type) [DecidableEq α] (ds : List α) :
    Finset.sum ds.toFinset (fun g => ds.count g) = ds.length := by
  simp

theorem sum_count_superset (α : Type) [DecidableEq α] (S : Finset α) (ds : List α)
    (hsub : ∀ g ∈ ds, g ∈ S) :
    Finset.sum S (fun g => ds.count g) = ds.length := by
  rw [← sum_count_toFinset α ds]
  refine (Finset.sum_subset ?_ ?_).symm
  · intro x hx
    exact hsub x (List.mem_toFinset.1 hx)
  · intro x _ hnx
    exact List.count_eq_zero.2 (fun hmem => hnx (List.mem_toFinset.2 hmem))

/-- Pigeonhole step of the verifier's argument: counts that are all at
most `bnd` and sum to `bnd` times the number of counters are all equal
to `bnd`. -/
theorem sum_all_eq (γ : Type) [DecidableEq γ] (S : Finset γ) (f : γ → Int) (bnd : Int)
    (hle : ∀ a ∈ S, f a ≤ bnd) (hsum : Finset.sum S f = bnd * (S.card : Int)) :
    ∀ a ∈ S, f a = bnd := by
  intro a0 ha0
  by_contra hne
  have hlt : f a0 < bnd := lt_of_le_of_ne (hle a0 ha0) hne
  have h2 : Finset.sum S f < Finset.sum S (fun _ => bnd) :=
    Finset.sum_lt_sum hle ⟨a0, ha0, hlt⟩
  rw [Finset.sum_const, nsmul_eq_mul] at h2
  rw [hsum, mul_comm] at h2
  exact lt_irrefl _ h2

/-- Claim C1: for every group `G` — presented by its `group_law` data,
with the group contract as hypotheses: the enumeration has no duplicates
and contains the identity, differences stay in the group, and
`op(a, inv(b)) = identity ↔ a = b` — and every family `D` of blocks of
`G`-elements with `v = G.cardinality()`, every block of length `k`, and
`b*k*(k-1) = l*(v-1)`: `is_difference_family(G, D, v, k, l)` raises
nothing and returns `True` if and only if within every block all
elements are pairwise distinct and every non-identity element of `G`
occurs exactly `l` times in the multiset of within-block differences
`op(d[i], inv(d[j]))`; on any violation it returns `False`. -/
theorem is_difference_family_true_iff (α : Type) [DecidableEq α]
    (G : GroupCap α) (D : List (List α)) (v k l : Int)
    (hnd : G.elements.Nodup)
    (hid : G.identity ∈ G.elements)
    (hcl : ∀ a ∈ G.elements, ∀ b ∈ G.elements, G.op a (G.inv b) ∈ G.elements)
    (hqi : ∀ a ∈ G.elements, ∀ b ∈ G.elements, (G.op a (G.inv b) = G.identity ↔ a = b))
    (hD : ∀ d ∈ D, ∀ a ∈ d, a ∈ G.elements)
    (hv : v = (G.elements.length : Int))
    (hk : ∀ d ∈ D, (d.length : Int) = k)
    (hbl : (D.length : Int) * k * (k - 1) = l * (v - 1)) :
    is_difference_family G D (some v) (some k) (some l)
      = .ok (decide ((∀ d ∈ D, d.Nodup) ∧
          (∀ g ∈ G.elements, g ≠ G.identity →
            ((allDiffs G k.toNat D).count g : Int) = l))) := by
  have hdlen : ∀ d ∈ D, d.length = k.toNat := by
    intro d hd
    have h := hk d hd
    omega
  have hdiffmem : ∀ g ∈ allDiffs G k.toNat D, g ∈ G.elements := by
    intro g hg
    rw [mem_allDiffs] at hg
    obtain ⟨d, hd, i, hi, j, ⟨hj, hji⟩, heq⟩ := hg
    have hlen := hdlen d hd
    have hi2 : i < d.length := by omega
    have hj2 : j < d.length := by omega
    rw [getD_lt d i G.identity hi2, getD_lt d j G.identity hj2] at heq
    rw [← heq]
    exact hcl _ (hD d hd _ (List.get_mem d i hi2)) _ (hD d hd _ (List.get_mem d j hj2))
  have hds_len : ((allDiffs G k.toNat D).length : Int) = l * (v - 1) := by
    rw [allDiffs_length]
    by_cases hD0 : D = []
    · subst hD0
      simp only [List.length_nil, Nat.zero_mul, Nat.cast_zero]
      simp only [List.length_nil, Nat.cast_zero, zero_mul] at hbl
      linarith [hbl]
    · obtain ⟨d0, hd0⟩ := List.exists_mem_of_ne_nil D hD0
      have hk0 : (0 : Int) ≤ k := by
        have h := hk d0 hd0
        omega
      have hkt : (k.toNat : Int) = k := Int.toNat_of_nonneg hk0
      rcases eq_or_lt_of_le hk0 with hk00 | hk1
      · rw [← hk00] at hbl ⊢
        simp only [Int.toNat_zero, Nat.zero_mul, Nat.mul_zero, Nat.cast_zero,
          mul_zero, zero_mul, zero_sub, mul_neg] at hbl ⊢
        linarith [hbl]
      · rw [Nat.cast_mul, Nat.cast_mul, Nat.cast_sub (by omega : 1 ≤ k.toNat),
          hkt, Nat.cast_one, ← mul_assoc]
        exact hbl
  obtain ⟨b, hb⟩ := checkDiffs_isSome α G l (allDiffs G k.toNat D) (fun _ => 0) hdiffmem
  have hvv : ¬((G.elements.length : Int) ≠ v) := not_ne_iff.2 hv.symm
  have hanyf : ¬((D.any fun d => decide ((d.length : Int) ≠ k)) = true) := by
    rw [List.any_eq_true]
    rintro ⟨d, hd, hdec⟩
    rw [decide_eq_true_eq] at hdec
    exact hdec (hk d hd)
  have hblne : ¬((D.length : Int) * k * (k - 1) ≠ l * (v - 1)) := not_ne_iff.2 hbl
  have hred : is_difference_family G D (some v) (some k) (some l) = .ok b := by
    simp only [is_difference_family, idfK, idfBlocks, idfLambda, idfCore]
    rw [if_neg hvv, if_neg hanyf, if_neg hblne, if_pos hid, hb]
  rw [hred]
  congr 1
  have hchar := checkDiffs_eq_true α G l (allDiffs G k.toNat D) (fun _ => 0)
  rw [hb, Option.some_inj] at hchar
  have hCP : (∀ g ∈ allDiffs G k.toNat D, g ≠ G.identity ∧ g ∈ G.elements ∧
        (fun _ => (0 : Int)) g + ((allDiffs G k.toNat D).count g : Int) ≤ l)
      ↔ ((∀ d ∈ D, d.Nodup) ∧
          (∀ g ∈ G.elements, g ≠ G.identity →
            ((allDiffs G k.toNat D).count g : Int) = l)) := by
    constructor
    · intro hC
      have hnoid : ∀ g ∈ allDiffs G k.toNat D, g ≠ G.identity := fun g hg => (hC g hg).1
      constructor
      · intro d hd
        rw [List.nodup_iff_injective_get]
        intro i1 i2 hget
        by_contra hne
        have hlen := hdlen d hd
        have hmem1 : G.op (d.getD i1.val G.identity) (G.inv (d.getD i2.val G.identity))
            ∈ allDiffs G k.toNat D := by
          rw [mem_allDiffs]
          refine ⟨d, hd, i1.val, by omega, i2.val, ⟨by omega, ?_⟩, rfl⟩
          intro hvals
          exact hne (Fin.ext hvals.symm)
        refine hnoid _ hmem1 ?_
        rw [getD_lt d i1.val G.identity i1.isLt, getD_lt d i2.val G.identity i2.isLt]
        refine (hqi _ (hD d hd _ (List.get_mem d i1.val i1.isLt))
          _ (hD d hd _ (List.get_mem d i2.val i2.isLt))).2 ?_
        exact hget
      · intro g hgel hgneid
        have hgS : g ∈ G.elements.toFinset.erase G.identity :=
          Finset.mem_erase.2 ⟨hgneid, List.mem_toFinset.2 hgel⟩
        have hsub : ∀ x ∈ allDiffs G k.toNat D,
            x ∈ G.elements.toFinset.erase G.identity := by
          intro x hx
          exact Finset.mem_erase.2 ⟨hnoid x hx, List.mem_toFinset.2 (hdiffmem x hx)⟩
        have hcard : (G.elements.toFinset.erase G.identity).card
            = G.elements.length - 1 := by
          rw [Finset.card_erase_of_mem (List.mem_toFinset.2 hid),
            List.toFinset_card_of_nodup hnd]
        have hlen2 : 2 ≤ G.elements.length := by
          by_contra hcon
          push_neg at hcon
          have h1 : 1 ≤ (G.elements.toFinset.erase G.identity).card :=
            Finset.card_pos.2 ⟨g, hgS⟩
          omega
        have hcardint : (((G.elements.toFinset.erase G.identity).card : Nat) : Int)
            = v - 1 := by
          rw [hcard, Nat.cast_sub (by omega), Nat.cast_one, ← hv]
        have hsumint : Finset.sum (G.elements.toFinset.erase G.identity)
            (fun x => ((allDiffs G k.toNat D).count x : Int))
            = l * (((G.elements.toFinset.erase G.identity).card : Nat) : Int) := by
          rw [← Nat.cast_sum]
          rw [sum_count_superset α _ _ hsub, hds_len, hcardint]
        have hl0 : (0 : Int) ≤ l := by
          have hnn : (0 : Int) ≤ l * (v - 1) := by
            rw [← hds_len]
            exact Int.natCast_nonneg _
          have hv2 : (2 : Int) ≤ v := by
            rw [hv]
            exact_mod_cast hlen2
          nlinarith
        have hle : ∀ x ∈ G.elements.toFinset.erase G.identity,
            ((allDiffs G k.toNat D).count x : Int) ≤ l := by
          intro x hx
          by_cases hxds : x ∈ allDiffs G k.toNat D
          · have h3 := (hC x hxds).2.2
            simpa using h3
          · rw [List.count_eq_zero.2 hxds]
            exact_mod_cast hl0
        exact sum_all_eq α _ _ l hle hsumint g hgS
    · rintro ⟨hP1, hP2⟩
      intro g hg
      have hgmem := hdiffmem g hg
      rw [mem_allDiffs] at hg
      obtain ⟨d, hd, i, hi, j, ⟨hj, hji⟩, heq⟩ := hg
      have hlen := hdlen d hd
      have hi2 : i < d.length := by omega
      have hj2 : j < d.length := by omega
      have hneid : g ≠ G.identity := by
        rw [← heq, getD_lt d i G.identity hi2, getD_lt d j G.identity hj2]
        intro hcon
        have hgg := (hqi _ (hD d hd _ (List.get_mem d i hi2))
          _ (hD d hd _ (List.get_mem d j hj2))).1 hcon
        have hNd := hP1 d hd
        rw [List.nodup_iff_injective_get] at hNd
        have hij := hNd hgg
        rw [Fin.mk.injEq] at hij
        exact hji hij.symm
      refine ⟨hneid, hgmem, ?_⟩
      have hcount := hP2 g hgmem hneid
      simp [hcount]
  replace hchar := hchar.trans hCP
  cases b with
  | false =>
    symm
    rw [decide_eq_false_iff_not]
    intro hp
    exact Bool.noConfusion (hchar.2 hp)
  | true =>
    symm
    rw [decide_eq_true_eq]
    exact hchar.1 rfl

theorem is_difference_family_true_iff_w :
    is_difference_family Z7F.toAdd [[1, 2, 4], [3, 6, 5]] (some 7) (some 3) (some 2)
      = .ok true := by
  have h := is_difference_family_true_iff (ZMod 7) Z7F.toAdd [[1, 2, 4], [3, 6, 5]]
    7 3 2 (by decide) (by decide) (by decide) (by decide) (by decide) (by decide)
    (by decide) (by decide)
  rw [h]
  congr 1
